import Mathlib

/-!
Shallow embedding of the evgfx tile-conversion core (`src/convert.rs`) and
proofs about its specified behaviour.

Machine integers (`usize`, `u8`, `u16`, `u32`) are modelled as `Nat`, with an
explicit `% 256` (resp. `% 65536`) exactly where the source performs an
`as u8` cast or extracts `u16` bytes.  Fallible operations return
`Except String`; an operation that can reach a Rust panic (an out-of-bounds
index) is wrapped in `Option`, with `none` standing for the panic.
The byte sink is abstracted: serializers return the list of bytes they would
write, and file-creation / IO errors are outside the model.
-/

/-- An RGB colour with 8-bit channels (the image crate's `Rgb<u8>`). -/
structure Rgb where
  r : Nat
  g : Nat
  b : Nat
  deriving DecidableEq

/-- An RGBA colour with 8-bit channels (the image crate's `Rgba<u8>`). -/
structure Rgba where
  r : Nat
  g : Nat
  b : Nat
  a : Nat
  deriving DecidableEq

/-- `Rgba::to_rgb` drops the alpha channel. -/
def Rgba.toRgb (p : Rgba) : Rgb := ⟨p.r, p.g, p.b⟩

/-- A `Tile` is its `indexes` field: palette indices in row-major order. -/
abbrev Tile := List Nat

/-- `Tile::convert_to_4bpp`.  The loop runs `i = 0, 2, 4, ...` over the index
list; each step checks `indexes[i] >= 16 || indexes[i + 1] >= 16` (with Rust's
short-circuit `||`) and then pushes `(indexes[i] | indexes[i + 1] << 4) as u8`.
`none` models the out-of-bounds panic at `indexes[i + 1]` reached when the
sequence has odd length and `indexes[i] >= 16` did not short-circuit first. -/
def Tile.convert_to_4bpp : Tile → Option (Except String (List Nat))
  | [] => some (Except.ok [])
  | [a] =>
    if 16 ≤ a then some (Except.error "Input image has too many colors")
    else none
  | a :: b :: rest =>
    if 16 ≤ a ∨ 16 ≤ b then some (Except.error "Input image has too many colors")
    else
      match Tile.convert_to_4bpp rest with
      | none => none
      | some (Except.error e) => some (Except.error e)
      | some (Except.ok bs) => some (Except.ok ((a ||| b <<< 4) % 256 :: bs))

/-- A `TileAtlas` is its `atlas` field: the stored tiles in insertion order. -/
abbrev TileAtlas := List Tile

/-- The linear scan inside `TileAtlas::update`: the index of the first stored
tile equal to `t`, in insertion order. -/
def TileAtlas.find : TileAtlas → Tile → Option Nat
  | [], _ => none
  | t' :: rest, t =>
    if t' = t then some 0 else (TileAtlas.find rest t).map (· + 1)

/-- `TileAtlas::update`: return the index of the first equal stored tile, or
push the tile and return the new length minus one. -/
def TileAtlas.update (self : TileAtlas) (new_tile : Tile) : Nat × TileAtlas :=
  match TileAtlas.find self new_tile with
  | some i => (i, self)
  | none =>
    let pushed := self ++ [new_tile]
    (pushed.length - 1, pushed)

/-- `TileAtlas::write_4bpp`: concatenate the 4bpp bytes of the stored tiles in
atlas order, propagating the first conversion error (and, in the model, the
first panic). -/
def TileAtlas.write_4bpp : TileAtlas → Option (Except String (List Nat))
  | [] => some (Except.ok [])
  | t :: rest =>
    match t.convert_to_4bpp with
    | none => none
    | some (Except.error e) => some (Except.error e)
    | some (Except.ok bs) =>
      match TileAtlas.write_4bpp rest with
      | none => none
      | some (Except.error e) => some (Except.error e)
      | some (Except.ok bs2) => some (Except.ok (bs ++ bs2))

/-- Two-step list induction matching the pairwise loop of
`Tile::convert_to_4bpp`. -/
theorem two_step_induction {P : List Nat → Prop} (h0 : P []) (h1 : ∀ a, P [a])
    (h2 : ∀ a b rest, P rest → P (a :: b :: rest)) : ∀ l, P l
  | [] => h0
  | [a] => h1 a
  | a :: b :: rest => h2 a b rest (two_step_induction h0 h1 h2 rest)

theorem TileAtlas.find_eq_none {atlas : TileAtlas} {t : Tile} :
    TileAtlas.find atlas t = none ↔ t ∉ atlas := by
  induction atlas with
  | nil => simp [TileAtlas.find]
  | cons t' rest ih =>
    by_cases h : t' = t
    · simp [TileAtlas.find, h]
    · simp only [TileAtlas.find, if_neg h, Option.map_eq_none', ih,
        List.mem_cons, not_or]
      constructor
      · intro hn
        exact ⟨fun he => h he.symm, hn⟩
      · intro hn
        exact hn.2

theorem TileAtlas.find_some {atlas : TileAtlas} {t : Tile} {i : Nat}
    (h : TileAtlas.find atlas t = some i) :
    atlas[i]? = some t ∧ ∀ j < i, atlas[j]? ≠ some t := by
  induction atlas generalizing i with
  | nil => simp [TileAtlas.find] at h
  | cons t' rest ih =>
    rw [TileAtlas.find] at h
    by_cases ht : t' = t
    · rw [if_pos ht] at h
      obtain rfl : (0 : Nat) = i := Option.some.inj h
      refine ⟨by simpa using congrArg some ht, ?_⟩
      intro j hj
      omega
    · rw [if_neg ht] at h
      obtain ⟨k, hk, rfl⟩ := Option.map_eq_some'.mp h
      obtain ⟨hmem, hfirst⟩ := ih hk
      refine ⟨by simpa using hmem, ?_⟩
      intro j hj
      cases j with
      | zero =>
        simpa using fun he => ht he
      | succ j' =>
        have := hfirst j' (by omega)
        simpa using this

theorem TileAtlas.find_isSome {atlas : TileAtlas} {t : Tile} (h : t ∈ atlas) :
    ∃ i, TileAtlas.find atlas t = some i := by
  cases hf : TileAtlas.find atlas t with
  | some i => exact ⟨i, rfl⟩
  | none => exact absurd h (TileAtlas.find_eq_none.mp hf)

theorem TileAtlas.find_push {atlas : TileAtlas} {t : Tile} (h : t ∉ atlas) :
    TileAtlas.find (atlas ++ [t]) t = some atlas.length := by
  induction atlas with
  | nil => simp [TileAtlas.find]
  | cons t' rest ih =>
    simp only [List.mem_cons, not_or] at h
    rw [List.cons_append, TileAtlas.find, if_neg (fun he => h.1 he.symm),
      ih h.2]
    rfl

/-- C1: `TileAtlas::update` returns the index of the first equal stored tile
and leaves the atlas unchanged when a match exists; otherwise it appends the
tile and returns the new length minus one.  Submitting the same tile value
again yields the same index with the atlas (hence its length) unchanged. -/
theorem TileAtlas.update_spec (atlas : TileAtlas) (t : Tile) :
    (t ∈ atlas → ∃ i, TileAtlas.update atlas t = (i, atlas) ∧
      atlas[i]? = some t ∧ ∀ j < i, atlas[j]? ≠ some t) ∧
    (t ∉ atlas → TileAtlas.update atlas t = (atlas.length, atlas ++ [t])) ∧
    TileAtlas.update (TileAtlas.update atlas t).2 t =
      ((TileAtlas.update atlas t).1, (TileAtlas.update atlas t).2) := by
  refine ⟨?_, ?_, ?_⟩
  · intro hmem
    obtain ⟨i, hf⟩ := TileAtlas.find_isSome hmem
    exact ⟨i, by simp [TileAtlas.update, hf], (TileAtlas.find_some hf).1,
      (TileAtlas.find_some hf).2⟩
  · intro hmem
    rw [TileAtlas.update, TileAtlas.find_eq_none.mpr hmem]
    simp
  · cases hf : TileAtlas.find atlas t with
    | some i => simp [TileAtlas.update, hf]
    | none =>
      have hnm : t ∉ atlas := TileAtlas.find_eq_none.mp hf
      simp [TileAtlas.update, hf, TileAtlas.find_push hnm]

/-- Witness for C1 at concrete inputs: a stored tile is found at its first
index, and a fresh tile is appended at the end. -/
theorem TileAtlas.update_spec_witness :
    (∃ i, TileAtlas.update [[1], [2]] [2] = (i, [[1], [2]]) ∧
      ([[1], [2]] : TileAtlas)[i]? = some [2] ∧
      ∀ j < i, ([[1], [2]] : TileAtlas)[j]? ≠ some [2]) ∧
    TileAtlas.update [[1]] [9] = (1, [[1], [9]]) :=
  ⟨(TileAtlas.update_spec [[1], [2]] [2]).1 (by decide),
    (TileAtlas.update_spec [[1]] [9]).2.1 (by decide)⟩

theorem Tile.convert_total_of_even :
    ∀ idx : Tile, idx.length % 2 = 0 → ∃ r, idx.convert_to_4bpp = some r := by
  intro idx
  induction idx using two_step_induction with
  | h0 => exact fun _ => ⟨Except.ok [], rfl⟩
  | h1 a => intro h; simp at h
  | h2 a b rest ih =>
    intro heven
    have hr : rest.length % 2 = 0 := by simp at heven; omega
    by_cases hab : 16 ≤ a ∨ 16 ≤ b
    · exact ⟨Except.error "Input image has too many colors",
        by rw [Tile.convert_to_4bpp, if_pos hab]⟩
    · obtain ⟨r, hrr⟩ := ih hr
      cases r with
      | error e =>
        exact ⟨Except.error e, by rw [Tile.convert_to_4bpp, if_neg hab, hrr]⟩
      | ok bs =>
        exact ⟨Except.ok ((a ||| b <<< 4) % 256 :: bs),
          by rw [Tile.convert_to_4bpp, if_neg hab, hrr]⟩

theorem Tile.convert_error_iff :
    ∀ idx : Tile, idx.length % 2 = 0 →
      ((∃ e, idx.convert_to_4bpp = some (Except.error e)) ↔ ∃ x ∈ idx, 16 ≤ x) := by
  intro idx
  induction idx using two_step_induction with
  | h0 =>
    intro _
    constructor
    · rintro ⟨e, he⟩
      simp [Tile.convert_to_4bpp] at he
    · rintro ⟨x, hx, _⟩
      simp at hx
  | h1 a => intro h; simp at h
  | h2 a b rest ih =>
    intro heven
    have hr : rest.length % 2 = 0 := by simp at heven; omega
    by_cases hab : 16 ≤ a ∨ 16 ≤ b
    · constructor
      · intro _
        rcases hab with h | h
        · exact ⟨a, by simp, h⟩
        · exact ⟨b, by simp, h⟩
      · intro _
        exact ⟨"Input image has too many colors",
          by rw [Tile.convert_to_4bpp, if_pos hab]⟩
    · obtain ⟨r, hrr⟩ := Tile.convert_total_of_even rest hr
      constructor
      · rintro ⟨e, he⟩
        rw [Tile.convert_to_4bpp, if_neg hab, hrr] at he
        cases r with
        | error e' =>
          obtain ⟨x, hx, hx16⟩ := (ih hr).mp ⟨e', hrr⟩
          exact ⟨x, by simp [hx], hx16⟩
        | ok bs => simp at he
      · rintro ⟨x, hx, hx16⟩
        simp only [List.mem_cons] at hx
        rcases hx with rfl | rfl | hx
        · exact absurd (Or.inl hx16) hab
        · exact absurd (Or.inr hx16) hab
        · obtain ⟨e, he⟩ := (ih hr).mpr ⟨x, hx, hx16⟩
          exact ⟨e, by rw [Tile.convert_to_4bpp, if_neg hab, he]⟩

theorem Tile.convert_none_iff :
    ∀ idx : Tile, idx.length % 2 = 1 →
      (idx.convert_to_4bpp = none ↔ ∀ x ∈ idx, x < 16) := by
  intro idx
  induction idx using two_step_induction with
  | h0 => intro h; simp at h
  | h1 a =>
    intro _
    by_cases ha : 16 ≤ a
    · rw [Tile.convert_to_4bpp, if_pos ha]
      simp
      omega
    · rw [Tile.convert_to_4bpp, if_neg ha]
      simp
      omega
  | h2 a b rest ih =>
    intro hodd
    have hr : rest.length % 2 = 1 := by simp at hodd; omega
    by_cases hab : 16 ≤ a ∨ 16 ≤ b
    · rw [Tile.convert_to_4bpp, if_pos hab]
      constructor
      · intro h
        simp at h
      · intro hall
        exfalso
        rcases hab with h | h
        · exact absurd (hall a (by simp)) (by omega)
        · exact absurd (hall b (by simp)) (by omega)
    · rw [Tile.convert_to_4bpp, if_neg hab]
      cases hc : Tile.convert_to_4bpp rest with
      | none =>
        have hrest := (ih hr).mp hc
        constructor
        · intro _ x hx
          simp only [List.mem_cons] at hx
          rcases hx with rfl | rfl | hx
          · omega
          · omega
          · exact hrest x hx
        · intro _
          rfl
      | some r =>
        have hnone : ¬ Tile.convert_to_4bpp rest = none := by simp [hc]
        cases r with
        | error e =>
          constructor
          · intro h
            simp at h
          · intro hall
            exact absurd ((ih hr).mpr (fun x hx => hall x (by simp [hx]))) hnone
        | ok bs =>
          constructor
          · intro h
            simp at h
          · intro hall
            exact absurd ((ih hr).mpr (fun x hx => hall x (by simp [hx]))) hnone

theorem Tile.convert_ok_char :
    ∀ idx : Tile, idx.length % 2 = 0 → (∀ x ∈ idx, x < 16) →
      ∃ out, idx.convert_to_4bpp = some (Except.ok out) ∧
        out.length = idx.length / 2 ∧
        ∀ k < out.length,
          out.getD k 0 = idx.getD (2 * k) 0 ||| idx.getD (2 * k + 1) 0 <<< 4 := by
  intro idx
  induction idx using two_step_induction with
  | h0 =>
    intro _ _
    refine ⟨[], rfl, rfl, ?_⟩
    intro k hk
    simp at hk
  | h1 a => intro h _; simp at h
  | h2 a b rest ih =>
    intro heven hlt
    have hr : rest.length % 2 = 0 := by simp at heven; omega
    have ha : a < 16 := hlt a (by simp)
    have hb : b < 16 := hlt b (by simp)
    obtain ⟨out, hout, hlen, hval⟩ := ih hr (fun x hx => hlt x (by simp [hx]))
    have hlt256 : a ||| b <<< 4 < 256 := by
      have h1 : a < 2 ^ 8 := by norm_num; omega
      have h2 : b <<< 4 < 2 ^ 8 := by rw [Nat.shiftLeft_eq]; norm_num; omega
      have h3 := Nat.or_lt_two_pow h1 h2
      norm_num at h3
      exact h3
    refine ⟨(a ||| b <<< 4) % 256 :: out, ?_, ?_, ?_⟩
    · rw [Tile.convert_to_4bpp, if_neg (by omega : ¬(16 ≤ a ∨ 16 ≤ b)), hout]
    · simp only [List.length_cons, hlen]
      omega
    · intro k hk
      cases k with
      | zero => simp [Nat.mod_eq_of_lt hlt256]
      | succ k' =>
        have h2k : 2 * (k' + 1) = 2 * k' + 1 + 1 := by ring
        rw [h2k]
        simp only [List.getD_cons_succ]
        exact hval k' (by simpa using hk)

/-- C2: for a tile whose index sequence has even length and all indices below
16, `convert_to_4bpp` returns `Ok` with one byte per index pair, where byte `k`
equals `indexes[2k] ||| indexes[2k+1] <<< 4`, pairs consumed in index order. -/
theorem Tile.convert_to_4bpp_packs_pairs (idx : Tile) (heven : idx.length % 2 = 0)
    (hlt : ∀ x ∈ idx, x < 16) :
    ∃ out, idx.convert_to_4bpp = some (Except.ok out) ∧
      out.length = idx.length / 2 ∧
      ∀ k < out.length,
        out.getD k 0 = idx.getD (2 * k) 0 ||| idx.getD (2 * k + 1) 0 <<< 4 :=
  Tile.convert_ok_char idx heven hlt

/-- Witness for C2: the 2-pixel tile `[3, 7]` packs to the single byte
`0x73`. -/
theorem Tile.convert_to_4bpp_packs_pairs_witness :
    (∃ out, Tile.convert_to_4bpp [3, 7] = some (Except.ok out) ∧
      out.length = ([3, 7] : Tile).length / 2 ∧
      ∀ k < out.length,
        out.getD k 0 =
          ([3, 7] : Tile).getD (2 * k) 0 ||| ([3, 7] : Tile).getD (2 * k + 1) 0 <<< 4) ∧
    Tile.convert_to_4bpp [3, 7] = some (Except.ok [0x73]) :=
  ⟨Tile.convert_to_4bpp_packs_pairs [3, 7] (by decide) (by decide), rfl⟩

theorem TileAtlas.write_total :
    ∀ atlas : TileAtlas, (∀ t ∈ atlas, t.length % 2 = 0) →
      ∃ r, TileAtlas.write_4bpp atlas = some r := by
  intro atlas
  induction atlas with
  | nil => exact fun _ => ⟨Except.ok [], rfl⟩
  | cons t rest ih =>
    intro hall
    obtain ⟨r, hr⟩ := Tile.convert_total_of_even t (hall t (by simp))
    obtain ⟨r2, hr2⟩ := ih (fun t' ht' => hall t' (by simp [ht']))
    cases r with
    | error e => exact ⟨Except.error e, by rw [TileAtlas.write_4bpp, hr]⟩
    | ok bs =>
      cases r2 with
      | error e2 =>
        exact ⟨Except.error e2, by rw [TileAtlas.write_4bpp, hr, hr2]⟩
      | ok bs2 =>
        exact ⟨Except.ok (bs ++ bs2), by rw [TileAtlas.write_4bpp, hr, hr2]⟩

theorem TileAtlas.write_error_iff :
    ∀ atlas : TileAtlas, (∀ t ∈ atlas, t.length % 2 = 0) →
      ((∃ e, TileAtlas.write_4bpp atlas = some (Except.error e)) ↔
        ∃ t ∈ atlas, ∃ x ∈ t, 16 ≤ x) := by
  intro atlas
  induction atlas with
  | nil =>
    intro _
    constructor
    · rintro ⟨e, he⟩
      simp [TileAtlas.write_4bpp] at he
    · rintro ⟨t, ht, _⟩
      simp at ht
  | cons t rest ih =>
    intro hall
    have ht := hall t (by simp)
    have hrest : ∀ t' ∈ rest, List.length t' % 2 = 0 :=
      fun t' ht' => hall t' (by simp [ht'])
    obtain ⟨r, hr⟩ := Tile.convert_total_of_even t ht
    cases r with
    | error e =>
      have hbad : ∃ x ∈ t, 16 ≤ x := (Tile.convert_error_iff t ht).mp ⟨e, hr⟩
      constructor
      · intro _
        exact ⟨t, by simp, hbad⟩
      · intro _
        exact ⟨e, by rw [TileAtlas.write_4bpp, hr]⟩
    | ok bs =>
      have hgood : ¬ ∃ x ∈ t, 16 ≤ x := by
        intro hbad
        obtain ⟨e, he⟩ := (Tile.convert_error_iff t ht).mpr hbad
        rw [hr] at he
        simp at he
      obtain ⟨r2, hr2⟩ := TileAtlas.write_total rest hrest
      cases r2 with
      | error e2 =>
        have hbad2 := (ih hrest).mp ⟨e2, hr2⟩
        constructor
        · intro _
          obtain ⟨t', ht', hx⟩ := hbad2
          exact ⟨t', by simp [ht'], hx⟩
        · intro _
          exact ⟨e2, by rw [TileAtlas.write_4bpp, hr, hr2]⟩
      | ok bs2 =>
        have hgood2 : ¬ ∃ t' ∈ rest, ∃ x ∈ t', 16 ≤ x := by
          intro hbad2
          obtain ⟨e2, he2⟩ := (ih hrest).mpr hbad2
          rw [hr2] at he2
          simp at he2
        constructor
        · rintro ⟨e, he⟩
          rw [TileAtlas.write_4bpp, hr, hr2] at he
          simp at he
        · rintro ⟨t', ht', hx⟩
          simp only [List.mem_cons] at ht'
          rcases ht' with rfl | ht'
          · exact absurd hx hgood
          · exact absurd ⟨t', ht', hx⟩ hgood2

/-- C3: for every even-length tile, 4bpp serialization fails with a content
error iff some index is ≥ 16 and succeeds otherwise; `TileAtlas.write_4bpp`
over an atlas of even-length tiles therefore fails iff some stored tile
contains an index ≥ 16. -/
theorem Tile.convert_to_4bpp_error_iff :
    (∀ idx : Tile, idx.length % 2 = 0 →
      (((∃ e, idx.convert_to_4bpp = some (Except.error e)) ↔ ∃ x ∈ idx, 16 ≤ x) ∧
        ((∀ x ∈ idx, x < 16) → ∃ out, idx.convert_to_4bpp = some (Except.ok out)))) ∧
    (∀ atlas : TileAtlas, (∀ t ∈ atlas, t.length % 2 = 0) →
      (((∃ e, TileAtlas.write_4bpp atlas = some (Except.error e)) ↔
          ∃ t ∈ atlas, ∃ x ∈ t, 16 ≤ x) ∧
        ((∀ t ∈ atlas, ∀ x ∈ t, x < 16) →
          ∃ bs, TileAtlas.write_4bpp atlas = some (Except.ok bs)))) := by
  constructor
  · intro idx heven
    refine ⟨Tile.convert_error_iff idx heven, ?_⟩
    intro hlt
    obtain ⟨out, hout, _, _⟩ := Tile.convert_ok_char idx heven hlt
    exact ⟨out, hout⟩
  · intro atlas hall
    refine ⟨TileAtlas.write_error_iff atlas hall, ?_⟩
    intro hlt
    obtain ⟨r, hr⟩ := TileAtlas.write_total atlas hall
    cases r with
    | error e =>
      obtain ⟨t, ht, hx⟩ := (TileAtlas.write_error_iff atlas hall).mp ⟨e, hr⟩
      obtain ⟨x, hxt, hx16⟩ := hx
      exact absurd hx16 (by have := hlt t ht x hxt; omega)
    | ok bs => exact ⟨bs, hr⟩

/-- Witness for C3 at a concrete tile and a concrete atlas. -/
theorem Tile.convert_to_4bpp_error_iff_witness :
    (((∃ e, Tile.convert_to_4bpp [0, 16] = some (Except.error e)) ↔
        ∃ x ∈ ([0, 16] : Tile), 16 ≤ x) ∧
      ((∀ x ∈ ([0, 16] : Tile), x < 16) →
        ∃ out, Tile.convert_to_4bpp [0, 16] = some (Except.ok out))) ∧
    (((∃ e, TileAtlas.write_4bpp [[1, 2]] = some (Except.error e)) ↔
        ∃ t ∈ ([[1, 2]] : TileAtlas), ∃ x ∈ t, 16 ≤ x) ∧
      ((∀ t ∈ ([[1, 2]] : TileAtlas), ∀ x ∈ t, x < 16) →
        ∃ bs, TileAtlas.write_4bpp [[1, 2]] = some (Except.ok bs))) :=
  ⟨Tile.convert_to_4bpp_error_iff.1 [0, 16] (by decide),
    Tile.convert_to_4bpp_error_iff.2 [[1, 2]] (by decide)⟩

/-- C10 (amended): under the even-length precondition every index access is in
bounds and `convert_to_4bpp` is total; an odd-length tile reaches the
out-of-bounds access `indexes[i + 1]` (modelled as `none`) exactly when every
index is below 16 — otherwise the short-circuited check `indexes[i] >= 16`
(or an earlier full pair check) returns the content error before the
out-of-bounds access. -/
theorem Tile.convert_to_4bpp_access (idx : Tile) :
    (idx.length % 2 = 0 → ∃ r, idx.convert_to_4bpp = some r) ∧
    (idx.length % 2 = 1 → (idx.convert_to_4bpp = none ↔ ∀ x ∈ idx, x < 16)) :=
  ⟨Tile.convert_total_of_even idx, Tile.convert_none_iff idx⟩

/-- Witness for C10: the even tile `[1, 2]` is converted totally; the odd tile
`[1]` reaches the out-of-bounds access. -/
theorem Tile.convert_to_4bpp_access_witness :
    (∃ r, Tile.convert_to_4bpp [1, 2] = some r) ∧
    (Tile.convert_to_4bpp [1] = none ↔ ∀ x ∈ ([1] : Tile), x < 16) :=
  ⟨(Tile.convert_to_4bpp_access [1, 2]).1 (by decide),
    (Tile.convert_to_4bpp_access [1]).2 (by decide)⟩

/-- C10 counterexample: the odd-length tile `[16]` does not perform the
out-of-bounds access `indexes[i + 1]`: the short-circuit check
`indexes[0] >= 16` fires first and the content error is returned instead. -/
theorem Tile.convert_to_4bpp_odd_short_circuit :
    Tile.convert_to_4bpp [16] =
      some (Except.error "Input image has too many colors") := rfl

/-- A `Palette` is its `table` field: colours in insertion order. -/
abbrev Palette := List Rgb

/-- `Palette::insert`: push the colour unchecked (no dedup on insert). -/
def Palette.insert (self : Palette) (color : Rgb) : Palette := self ++ [color]

/-- `Palette::get`: linear scan for the first entry equal to
`color.to_rgb()`. -/
def Palette.get : Palette → Rgba → Option Nat
  | [], _ => none
  | c :: rest, color =>
    if c = color.toRgb then some 0 else (Palette.get rest color).map (· + 1)

/-- The 16-bit word `(r as u16) >> 3 | ((g as u16) >> 3) << 5 |
((b as u16) >> 3) << 10` computed by `Palette::write_rgb555` for one entry
(channels are `u8` values, hence the `% 256`). -/
def rgb555word (c : Rgb) : Nat :=
  (c.r % 256) >>> 3 ||| ((c.g % 256) >>> 3) <<< 5 ||| ((c.b % 256) >>> 3) <<< 10

/-- The `u16::to_le_bytes` stream of the words of a list of entries. -/
def rgb555bytes : List Rgb → List Nat
  | [] => []
  | c :: rest =>
    rgb555word c % 256 :: rgb555word c / 256 % 256 :: rgb555bytes rest

/-- `Palette::write_rgb555`, content bytes only.  The slice
`&self.table[1..self.table.len()]` requires `1 ≤ len`, so `none` models the
panic taken when `skip_first` is set on an empty palette. -/
def Palette.write_rgb555 (self : Palette) (skip_first : Bool) :
    Option (List Nat) :=
  if skip_first then
    if self.length < 1 then none
    else some (rgb555bytes (self.drop 1))
  else some (rgb555bytes self)

theorem rgb555word_lt (c : Rgb) : rgb555word c < 32768 := by
  have h1 : (c.r % 256) >>> 3 < 2 ^ 15 := by
    rw [Nat.shiftRight_eq_div_pow]
    have : c.r % 256 < 256 := Nat.mod_lt _ (by omega)
    norm_num
    omega
  have h2 : ((c.g % 256) >>> 3) <<< 5 < 2 ^ 15 := by
    rw [Nat.shiftRight_eq_div_pow, Nat.shiftLeft_eq]
    have : c.g % 256 < 256 := Nat.mod_lt _ (by omega)
    norm_num
    omega
  have h3 : ((c.b % 256) >>> 3) <<< 10 < 2 ^ 15 := by
    rw [Nat.shiftRight_eq_div_pow, Nat.shiftLeft_eq]
    have : c.b % 256 < 256 := Nat.mod_lt _ (by omega)
    norm_num
    omega
  have := Nat.or_lt_two_pow (Nat.or_lt_two_pow h1 h2) h3
  norm_num at this
  exact this

theorem rgb555bytes_char : ∀ l : List Rgb,
    (rgb555bytes l).length = 2 * l.length ∧
    ∀ k < l.length, ∃ c, l[k]? = some c ∧
      (rgb555bytes l).getD (2 * k) 0 = rgb555word c % 256 ∧
      (rgb555bytes l).getD (2 * k + 1) 0 = rgb555word c / 256 % 256 := by
  intro l
  induction l with
  | nil =>
    refine ⟨rfl, ?_⟩
    intro k hk
    simp at hk
  | cons c rest ih =>
    refine ⟨by simp [rgb555bytes, ih.1]; omega, ?_⟩
    intro k hk
    cases k with
    | zero => exact ⟨c, by simp, by simp [rgb555bytes], by simp [rgb555bytes]⟩
    | succ k' =>
      obtain ⟨c', hc', h1, h2⟩ := ih.2 k' (by simpa using hk)
      refine ⟨c', by simpa using hc', ?_, ?_⟩
      · have h2k : 2 * (k' + 1) = 2 * k' + 1 + 1 := by ring
        rw [h2k]
        simpa [rgb555bytes] using h1
      · have h2k : 2 * (k' + 1) = 2 * k' + 1 + 1 := by ring
        rw [h2k]
        simpa [rgb555bytes] using h2

/-- C8: `write_rgb555` serializes each entry (all of them, or from index 1 on
when `skip_first`) as a little-endian 16-bit word `rgb555word`, whose bit 15
is always 0. -/
theorem Palette.write_rgb555_spec (table : Palette) (skip_first : Bool)
    (h : skip_first = true → table ≠ []) :
    ∃ bs, Palette.write_rgb555 table skip_first = some bs ∧
      bs.length = 2 * (if skip_first then table.length - 1 else table.length) ∧
      ∀ k < (if skip_first then table.length - 1 else table.length),
        ∃ c, table[k + (if skip_first then 1 else 0)]? = some c ∧
          bs.getD (2 * k) 0 = rgb555word c % 256 ∧
          bs.getD (2 * k + 1) 0 = rgb555word c / 256 % 256 ∧
          Nat.testBit (rgb555word c) 15 = false := by
  cases skip_first with
  | false =>
    refine ⟨rgb555bytes table, rfl, by simpa using (rgb555bytes_char table).1, ?_⟩
    intro k hk
    simp only [Bool.false_eq_true, if_false] at hk ⊢
    obtain ⟨c, hc, h1, h2⟩ := (rgb555bytes_char table).2 k (by simpa using hk)
    exact ⟨c, by simpa using hc, h1, h2,
      Nat.testBit_lt_two_pow (by have := rgb555word_lt c; norm_num; omega)⟩
  | true =>
    have hne : table ≠ [] := h rfl
    have hlen : 1 ≤ table.length := by
      cases table with
      | nil => exact absurd rfl hne
      | cons a l => simp
    refine ⟨rgb555bytes (table.drop 1), ?_, ?_, ?_⟩
    · rw [Palette.write_rgb555]
      rw [if_pos rfl, if_neg (by omega)]
    · simpa using (rgb555bytes_char (table.drop 1)).1
    · intro k hk
      simp only [eq_self_iff_true, if_true] at hk ⊢
      obtain ⟨c, hc, h1, h2⟩ := (rgb555bytes_char (table.drop 1)).2 k
        (by simp at hk ⊢; omega)
      refine ⟨c, ?_, h1, h2,
        Nat.testBit_lt_two_pow (by have := rgb555word_lt c; norm_num; omega)⟩
      rw [List.getElem?_drop] at hc
      rw [Nat.add_comm k 1]
      exact hc

/-- Witness for C8: with `skip_first` set, the entry after the reserved one,
pure red `(248, 0, 0)`, packs to the little-endian bytes `[0x1F, 0x00]`. -/
theorem Palette.write_rgb555_spec_witness :
    (∃ bs, Palette.write_rgb555 [⟨1, 2, 3⟩, ⟨248, 0, 0⟩] true = some bs ∧
      bs.length =
        2 * (if true then ([⟨1, 2, 3⟩, ⟨248, 0, 0⟩] : Palette).length - 1
          else ([⟨1, 2, 3⟩, ⟨248, 0, 0⟩] : Palette).length) ∧
      ∀ k < (if true then ([⟨1, 2, 3⟩, ⟨248, 0, 0⟩] : Palette).length - 1
          else ([⟨1, 2, 3⟩, ⟨248, 0, 0⟩] : Palette).length),
        ∃ c, ([⟨1, 2, 3⟩, ⟨248, 0, 0⟩] : Palette)[k + (if true then 1 else 0)]? = some c ∧
          bs.getD (2 * k) 0 = rgb555word c % 256 ∧
          bs.getD (2 * k + 1) 0 = rgb555word c / 256 % 256 ∧
          Nat.testBit (rgb555word c) 15 = false) ∧
    Palette.write_rgb555 [⟨1, 2, 3⟩, ⟨248, 0, 0⟩] true = some [0x1F, 0x00] :=
  ⟨Palette.write_rgb555_spec [⟨1, 2, 3⟩, ⟨248, 0, 0⟩] true (fun _ => by simp), rfl⟩

/-- A `TileMap` is its `map` field: rows of atlas indices. -/
abbrev TileMap := List (List Nat)

/-- One row of `TileMap::write_8bit`: each entry is compared against
`u8::MAX as usize` (that is, 255) with `>=`, then written as `i as u8`. -/
def write_8bit_row : List Nat → Except String (List Nat)
  | [] => Except.ok []
  | i :: rest =>
    if 255 ≤ i then
      Except.error s!"Too many tiles: index {i} is too large for an 8-bit map"
    else
      match write_8bit_row rest with
      | Except.error e => Except.error e
      | Except.ok bs => Except.ok (i % 256 :: bs)

/-- `TileMap::write_8bit`, content bytes only: rows flattened in order. -/
def TileMap.write_8bit : TileMap → Except String (List Nat)
  | [] => Except.ok []
  | row :: rest =>
    match write_8bit_row row with
    | Except.error e => Except.error e
    | Except.ok bs =>
      match TileMap.write_8bit rest with
      | Except.error e => Except.error e
      | Except.ok bs2 => Except.ok (bs ++ bs2)

/-- C4 (code bug): the map `[[255]]` makes `write_8bit` fail even though 255
fits in one byte — the source compares with `>= u8::MAX`, i.e. `>= 255` —
while `[[254]]` is emitted as the single byte 254. -/
theorem TileMap.write_8bit_rejects_255 :
    TileMap.write_8bit [[255]] =
      Except.error "Too many tiles: index 255 is too large for an 8-bit map" ∧
    TileMap.write_8bit [[254]] = Except.ok [254] := ⟨rfl, rfl⟩

/-- A decoded image, or a sub-image produced by `img.view`: dimensions plus a
per-pixel RGBA query (out-of-range behaviour belongs to the image source
collaborator, so the query is total). -/
structure Image where
  width : Nat
  height : Nat
  pix : Nat → Nat → Rgba

/-- `GenericImageView::view`: the `(x, y, width, height)` sub-rectangle. -/
def Image.view (img : Image) (x y w h : Nat) : Image :=
  ⟨w, h, fun px py => img.pix (x + px) (y + py)⟩

/-- The per-pixel body of `create_tile`: push 0 for an alpha-transparent pixel
and `continue` without touching the palette; otherwise insert the colour when
`Palette::get` misses, then push the looked-up index (the `unwrap` is
justified by `Palette.get_insert_self` below). -/
def pixelStep (alpha_threshold : Nat) (st : Tile × Palette) (pixel : Rgba) :
    Tile × Palette :=
  if pixel.a < alpha_threshold then (st.1 ++ [0], st.2)
  else
    let pal := if (Palette.get st.2 pixel).isNone
      then Palette.insert st.2 pixel.toRgb else st.2
    (st.1 ++ [(Palette.get pal pixel).getD 0], pal)

/-- `create_tile`: scan the region row-major (`y` outer, `x` inner), starting
from an empty index list and the caller's palette. -/
def create_tile (img : Image) (palette : Palette) (alpha_threshold : Nat) :
    Tile × Palette :=
  (List.range img.height).foldl
    (fun st y =>
      (List.range img.width).foldl
        (fun st x => pixelStep alpha_threshold st (img.pix x y)) st)
    ([], palette)

/-- C7: a pixel whose alpha is below the threshold resolves to palette index 0
with the palette unchanged — no lookup, no insertion, no transparency colour
required. -/
theorem pixelStep_transparent (alpha_threshold : Nat) (st : Tile × Palette)
    (pixel : Rgba) (h : pixel.a < alpha_threshold) :
    pixelStep alpha_threshold st pixel = (st.1 ++ [0], st.2) := by
  rw [pixelStep, if_pos h]

/-- Witness for C7: a transparent pixel under the default threshold 128. -/
theorem pixelStep_transparent_witness :
    pixelStep 128 ([5], [⟨1, 2, 3⟩]) ⟨7, 7, 7, 0⟩ =
      (([5] : Tile) ++ [0], ([⟨1, 2, 3⟩] : Palette)) :=
  pixelStep_transparent 128 ([5], [⟨1, 2, 3⟩]) ⟨7, 7, 7, 0⟩ (by decide)

theorem Palette.get_lt {pal : Palette} {color : Rgba} {i : Nat}
    (h : Palette.get pal color = some i) : i < pal.length := by
  induction pal generalizing i with
  | nil => simp [Palette.get] at h
  | cons c rest ih =>
    rw [Palette.get] at h
    by_cases hc : c = color.toRgb
    · rw [if_pos hc] at h
      obtain rfl : (0 : Nat) = i := Option.some.inj h
      simp
    · rw [if_neg hc] at h
      obtain ⟨k, hk, rfl⟩ := Option.map_eq_some'.mp h
      have := ih hk
      simp
      omega

theorem Palette.get_insert_self {pal : Palette} {color : Rgba}
    (h : Palette.get pal color = none) :
    Palette.get (Palette.insert pal color.toRgb) color = some pal.length := by
  induction pal with
  | nil => simp [Palette.get, Palette.insert]
  | cons c rest ih =>
    rw [Palette.get] at h
    by_cases hc : c = color.toRgb
    · rw [if_pos hc] at h
      simp at h
    · rw [if_neg hc] at h
      have hrest : Palette.get rest color = none := by
        cases hr : Palette.get rest color with
        | none => rfl
        | some k => rw [hr] at h; simp at h
      rw [Palette.insert, List.cons_append, Palette.get, if_neg hc]
      have := ih hrest
      rw [Palette.insert] at this
      rw [this]
      simp

/-- A fold preserves any invariant its step preserves. -/
theorem foldl_preserve {α β : Type} {P : α → Prop} {f : α → β → α}
    (hf : ∀ a b, P a → P (f a b)) : ∀ (l : List β) (a : α), P a → P (List.foldl f a l)
  | [], _, h => h
  | b :: l, a, h => foldl_preserve hf l (f a b) (hf a b h)

/-- `foldl_preserve` with the invariant given explicitly, to guide
elaboration. -/
theorem foldl_preserve_on {α β : Type} (P : α → Prop) {f : α → β → α}
    (hf : ∀ a b, P a → P (f a b)) (l : List β) (a : α) (h : P a) :
    P (List.foldl f a l) :=
  foldl_preserve hf l a h

theorem pixelStep_palette_mono (alpha_threshold : Nat) (st : Tile × Palette)
    (pixel : Rgba) :
    ∃ s, (pixelStep alpha_threshold st pixel).2 = st.2 ++ s := by
  rw [pixelStep]
  by_cases h : pixel.a < alpha_threshold
  · exact ⟨[], by rw [if_pos h]; simp⟩
  · rw [if_neg h]
    by_cases hg : (Palette.get st.2 pixel).isNone
    · exact ⟨[pixel.toRgb], by simp [hg, Palette.insert]⟩
    · exact ⟨[], by simp [hg]⟩

theorem pixelStep_opaque_found {alpha_threshold : Nat} {st : Tile × Palette}
    {pixel : Rgba} {k : Nat} (ht : ¬ pixel.a < alpha_threshold)
    (hk : Palette.get st.2 pixel = some k) :
    pixelStep alpha_threshold st pixel = (st.1 ++ [k], st.2) := by
  rw [pixelStep, if_neg ht]
  simp [hk]

theorem pixelStep_opaque_new {alpha_threshold : Nat} {st : Tile × Palette}
    {pixel : Rgba} (ht : ¬ pixel.a < alpha_threshold)
    (hn : Palette.get st.2 pixel = none) :
    pixelStep alpha_threshold st pixel =
      (st.1 ++ [st.2.length], Palette.insert st.2 pixel.toRgb) := by
  rw [pixelStep, if_neg ht]
  simp [hn, Palette.get_insert_self hn]

theorem pixelStep_indexes_valid (alpha_threshold : Nat) (st : Tile × Palette)
    (pixel : Rgba) (h : ∀ i ∈ st.1, i = 0 ∨ i < st.2.length) :
    ∀ i ∈ (pixelStep alpha_threshold st pixel).1,
      i = 0 ∨ i < (pixelStep alpha_threshold st pixel).2.length := by
  by_cases ht : pixel.a < alpha_threshold
  · rw [pixelStep, if_pos ht]
    intro i hi
    rcases List.mem_append.mp hi with hi | hi
    · exact h i hi
    · simp at hi
      exact Or.inl hi
  · cases hk : Palette.get st.2 pixel with
    | some k =>
      rw [pixelStep_opaque_found ht hk]
      intro i hi
      rcases List.mem_append.mp hi with hi | hi
      · exact h i hi
      · simp at hi
        subst hi
        exact Or.inr (Palette.get_lt hk)
    | none =>
      rw [pixelStep_opaque_new ht hk]
      intro i hi
      rcases List.mem_append.mp hi with hi | hi
      · rcases h i hi with rfl | hlt
        · exact Or.inl rfl
        · refine Or.inr ?_
          simp only [Palette.insert, List.length_append, List.length_cons,
            List.length_nil]
          omega
      · simp at hi
        subst hi
        refine Or.inr ?_
        simp only [Palette.insert, List.length_append, List.length_cons,
          List.length_nil]
        omega

theorem create_tile_inv (img : Image) (palette : Palette)
    (alpha_threshold : Nat) :
    ∀ i ∈ (create_tile img palette alpha_threshold).1,
      i = 0 ∨ i < (create_tile img palette alpha_threshold).2.length := by
  rw [create_tile]
  refine foldl_preserve_on
    (fun st : Tile × Palette => ∀ i ∈ st.1, i = 0 ∨ i < st.2.length) ?_ _ _ ?_
  · intro st y hst
    exact foldl_preserve
      (fun st' x h' => pixelStep_indexes_valid alpha_threshold st' (img.pix x y) h')
      _ _ hst
  · intro i hi
    simp at hi

/-- C9 (amended): every index of a tile built by `create_tile` is a valid
palette position at tile completion provided the completed palette is
nonempty; the alpha-transparency path pushes index 0 unconditionally, which is
in range exactly under that proviso. -/
theorem create_tile_indexes_valid (img : Image) (palette : Palette)
    (alpha_threshold : Nat)
    (h : (create_tile img palette alpha_threshold).2 ≠ []) :
    ∀ i ∈ (create_tile img palette alpha_threshold).1,
      i < (create_tile img palette alpha_threshold).2.length := by
  intro i hi
  rcases create_tile_inv img palette alpha_threshold i hi with rfl | hlt
  · exact List.length_pos.mpr h
  · exact hlt

/-- Witness for C9: one opaque pixel scanned from an empty palette inserts its
colour; the resulting tile is `[0]` and index 0 is in range. -/
theorem create_tile_indexes_valid_witness :
    0 < (create_tile ⟨1, 1, fun _ _ => ⟨1, 2, 3, 255⟩⟩ [] 128).2.length :=
  create_tile_indexes_valid ⟨1, 1, fun _ _ => ⟨1, 2, 3, 255⟩⟩ [] 128
    (by decide) 0 (by decide)

/-- C9 counterexample: a 1×1 fully transparent region scanned with an empty
palette (no transparency colour reserved) completes with tile `[0]` and an
empty palette, so index 0 is not a valid palette position at completion. -/
theorem create_tile_transparent_empty_palette :
    create_tile ⟨1, 1, fun _ _ => ⟨9, 9, 9, 0⟩⟩ [] 128 = ([0], []) ∧
    ¬ ∀ i ∈ (create_tile ⟨1, 1, fun _ _ => ⟨9, 9, 9, 0⟩⟩ [] 128).1,
        i < (create_tile ⟨1, 1, fun _ _ => ⟨9, 9, 9, 0⟩⟩ [] 128).2.length :=
  ⟨by decide, by decide⟩

/-- `(start..stop).step_by(step)`: `start, start + step, ...` below `stop`. -/
def stepRange (start stop step : Nat) : List Nat :=
  (List.range ((stop - start + step - 1) / step)).map (fun k => start + k * step)

/-- The `(Palette, TileAtlas, TileMap)` triple `convert_image` returns. -/
structure ConvResult where
  palette : Palette
  tiles : TileAtlas
  tilemap : TileMap
  deriving DecidableEq

/-- `Config`: per-conversion parameters. -/
structure Config where
  width : Nat
  height : Nat
  sub_width : Nat
  sub_height : Nat
  transparency_color : Option Rgb
  alpha_threshold : Nat

/-- `Config::new`: 8×8 tiles and sub-tiles, no transparency, threshold 128. -/
def Config.new : Config := ⟨8, 8, 8, 8, none, 128⟩

/-- `Config::with_tilesize`. -/
def Config.with_tilesize (self : Config) (width height : Nat) : Config :=
  { self with width := width, height := height }

/-- `Config::with_transparency_color`. -/
def Config.with_transparency_color (self : Config) (r g b : Nat) : Config :=
  { self with transparency_color := some ⟨r, g, b⟩ }

/-- The `subtile_x` loop body of `convert_image`: build the sub-tile from the
`(subtile_x, subtile_y, sub_width, sub_height)` view, submit it to the atlas,
and push the returned index onto `tilemap.map[last_row]`.  The enclosing
`subtile_y` iteration pushes a row first, so `last_row` is always in range
there (`List.set` is a no-op out of range, where the source would panic). -/
def subtileXStep (self : Config) (img : Image) (subtile_y : Nat)
    (st : ConvResult) (subtile_x : Nat) : ConvResult :=
  let built := create_tile
    (img.view subtile_x subtile_y self.sub_width self.sub_height)
    st.palette self.alpha_threshold
  let upd := TileAtlas.update st.tiles built.1
  let last_row := st.tilemap.length - 1
  ⟨built.2, upd.2,
    st.tilemap.set last_row (st.tilemap.getD last_row [] ++ [upd.1])⟩

/-- The `subtile_y` loop body: push a fresh tilemap row, then run the
`subtile_x` loop over `(tile_x..tile_x + width).step_by(sub_width)`. -/
def subtileYStep (self : Config) (img : Image) (tile_x : Nat)
    (st : ConvResult) (subtile_y : Nat) : ConvResult :=
  (stepRange tile_x (tile_x + self.width) self.sub_width).foldl
    (subtileXStep self img subtile_y)
    ⟨st.palette, st.tiles, st.tilemap ++ [[]]⟩

/-- The `tile_x` loop body: run the `subtile_y` loop over
`(tile_y..tile_y + height).step_by(sub_height)`. -/
def tileXStep (self : Config) (img : Image) (tile_y : Nat)
    (st : ConvResult) (tile_x : Nat) : ConvResult :=
  (stepRange tile_y (tile_y + self.height) self.sub_height).foldl
    (subtileYStep self img tile_x) st

/-- The `tile_y` loop body: run the `tile_x` loop over
`(0..img.width()).step_by(width)`. -/
def tileYStep (self : Config) (img : Image) (st : ConvResult) (tile_y : Nat) :
    ConvResult :=
  (stepRange 0 img.width self.width).foldl (tileXStep self img tile_y) st

/-- `Config::convert_image` (image decoding abstracted into `img`): fresh
palette — with the transparency colour inserted first when configured — fresh
atlas and fresh map, then the nested scan over
`(0..img.height()).step_by(height)`. -/
def Config.convert_image (self : Config) (img : Image) : ConvResult :=
  let palette : Palette := match self.transparency_color with
    | some transparency_color => Palette.insert [] transparency_color
    | none => []
  (stepRange 0 img.height self.height).foldl (tileYStep self img)
    ⟨palette, [], []⟩

theorem create_tile_palette_mono (img : Image) (palette : Palette)
    (alpha_threshold : Nat) :
    ∃ s, (create_tile img palette alpha_threshold).2 = palette ++ s := by
  rw [create_tile]
  refine foldl_preserve_on
    (fun st : Tile × Palette => ∃ s, st.2 = palette ++ s) ?_ _ _ ⟨[], by simp⟩
  rintro st y ⟨s, hs⟩
  refine foldl_preserve_on
    (fun st : Tile × Palette => ∃ s, st.2 = palette ++ s) ?_ _ _ ⟨s, hs⟩
  rintro st' x ⟨s', hs'⟩
  obtain ⟨s2, hs2⟩ := pixelStep_palette_mono alpha_threshold st' (img.pix x y)
  exact ⟨s' ++ s2, by rw [hs2, hs', List.append_assoc]⟩

theorem subtileXStep_palette_mono (self : Config) (img : Image)
    (subtile_y : Nat) (st : ConvResult) (subtile_x : Nat) :
    ∃ s, (subtileXStep self img subtile_y st subtile_x).palette =
      st.palette ++ s :=
  create_tile_palette_mono _ _ _

theorem subtileYStep_palette_mono (self : Config) (img : Image) (tile_x : Nat)
    (st : ConvResult) (subtile_y : Nat) :
    ∃ s, (subtileYStep self img tile_x st subtile_y).palette =
      st.palette ++ s := by
  rw [subtileYStep]
  refine foldl_preserve_on
    (fun x : ConvResult => ∃ s, x.palette = st.palette ++ s) ?_ _ _ ⟨[], by simp⟩
  rintro st' sx ⟨s, hs⟩
  obtain ⟨s2, hs2⟩ := subtileXStep_palette_mono self img subtile_y st' sx
  exact ⟨s ++ s2, by rw [hs2, hs, List.append_assoc]⟩

theorem tileXStep_palette_mono (self : Config) (img : Image) (tile_y : Nat)
    (st : ConvResult) (tile_x : Nat) :
    ∃ s, (tileXStep self img tile_y st tile_x).palette = st.palette ++ s := by
  rw [tileXStep]
  refine foldl_preserve_on
    (fun x : ConvResult => ∃ s, x.palette = st.palette ++ s) ?_ _ _ ⟨[], by simp⟩
  rintro st' sy ⟨s, hs⟩
  obtain ⟨s2, hs2⟩ := subtileYStep_palette_mono self img tile_x st' sy
  exact ⟨s ++ s2, by rw [hs2, hs, List.append_assoc]⟩

theorem tileYStep_palette_mono (self : Config) (img : Image) (st : ConvResult)
    (tile_y : Nat) :
    ∃ s, (tileYStep self img st tile_y).palette = st.palette ++ s := by
  rw [tileYStep]
  refine foldl_preserve_on
    (fun x : ConvResult => ∃ s, x.palette = st.palette ++ s) ?_ _ _ ⟨[], by simp⟩
  rintro st' tx ⟨s, hs⟩
  obtain ⟨s2, hs2⟩ := tileXStep_palette_mono self img tile_y st' tx
  exact ⟨s ++ s2, by rw [hs2, hs, List.append_assoc]⟩

/-- C6: with a transparency colour configured, the palette returned by
`convert_image` holds that colour at index 0, whatever the image contents:
it is inserted before any pixel is scanned and entries are only appended. -/
theorem convert_image_transparency (self : Config) (img : Image) (c : Rgb)
    (h : self.transparency_color = some c) :
    (self.convert_image img).palette.head? = some c := by
  have hmono : ∃ s, (self.convert_image img).palette = [c] ++ s := by
    rw [Config.convert_image, h]
    refine foldl_preserve_on
      (fun x : ConvResult => ∃ s, x.palette = [c] ++ s) ?_ _ _
      ⟨[], by simp [Palette.insert]⟩
    rintro st ty ⟨s, hs⟩
    obtain ⟨s2, hs2⟩ := tileYStep_palette_mono self img st ty
    exact ⟨s ++ s2, by rw [hs2, hs, List.append_assoc]⟩
  obtain ⟨s, hs⟩ := hmono
  rw [hs]
  rfl

/-- Witness for C6: magenta transparency on an empty image stays at index 0. -/
theorem convert_image_transparency_witness :
    ((Config.new.with_transparency_color 255 0 255).convert_image
      ⟨0, 0, fun _ _ => ⟨0, 0, 0, 0⟩⟩).palette.head? = some ⟨255, 0, 255⟩ :=
  convert_image_transparency _ _ _ rfl

theorem stepRange_length (a d s : Nat) :
    (stepRange a (a + d) s).length = (d + s - 1) / s := by
  simp [stepRange, Nat.add_sub_cancel_left]

theorem set_last_eq : ∀ (m : TileMap) (v : List Nat), m ≠ [] →
    m.set (m.length - 1) v = m.dropLast ++ [v]
  | [], _, h => absurd rfl h
  | [_], _, _ => rfl
  | x :: y :: rest, v, _ => by
    have ih := set_last_eq (y :: rest) v (by simp)
    have hlen : (x :: y :: rest).length - 1 = ((y :: rest).length - 1) + 1 := by
      simp
    rw [hlen, List.set_cons_succ, ih]
    show x :: ((y :: rest).dropLast ++ [v]) = (x :: (y :: rest).dropLast) ++ [v]
    rw [List.cons_append]

theorem dropLast_getD_self : ∀ m : TileMap, m ≠ [] →
    m.dropLast ++ [m.getD (m.length - 1) []] = m
  | [], h => absurd rfl h
  | [_], _ => rfl
  | x :: y :: rest, _ => by
    have ih := dropLast_getD_self (y :: rest) (by simp)
    have hlen : (x :: y :: rest).length - 1 = ((y :: rest).length - 1) + 1 := by
      simp
    rw [hlen, List.getD_cons_succ]
    show (x :: (y :: rest).dropLast) ++
      [(y :: rest).getD ((y :: rest).length - 1) []] = x :: y :: rest
    rw [List.cons_append, ih]

theorem getD_last_concat : ∀ (w : TileMap) (u : List Nat),
    (w ++ [u]).getD ((w ++ [u]).length - 1) [] = u
  | [], _ => rfl
  | a :: w, u => by
    have ih := getD_last_concat w u
    have hlen : ((a :: w) ++ [u]).length - 1 = ((w ++ [u]).length - 1) + 1 := by
      simp
    rw [hlen]
    rw [List.cons_append, List.getD_cons_succ]
    exact ih

theorem subtileX_fold_tilemap (self : Config) (img : Image) (subtile_y : Nat) :
    ∀ (xs : List Nat) (st : ConvResult), st.tilemap ≠ [] →
      ∃ ixs : List Nat, ixs.length = xs.length ∧
        (List.foldl (subtileXStep self img subtile_y) st xs).tilemap =
          st.tilemap.dropLast ++
            [st.tilemap.getD (st.tilemap.length - 1) [] ++ ixs] := by
  intro xs
  induction xs with
  | nil =>
    intro st hne
    refine ⟨[], rfl, ?_⟩
    rw [List.append_nil]
    exact (dropLast_getD_self st.tilemap hne).symm
  | cons x xs ih =>
    intro st hne
    obtain ⟨v, hstep⟩ : ∃ i0, (subtileXStep self img subtile_y st x).tilemap =
        st.tilemap.dropLast ++
          [st.tilemap.getD (st.tilemap.length - 1) [] ++ [i0]] :=
      ⟨_, set_last_eq st.tilemap _ hne⟩
    have hne1 : (subtileXStep self img subtile_y st x).tilemap ≠ [] := by
      rw [hstep]
      simp
    obtain ⟨ixs, hlen, hfold⟩ := ih (subtileXStep self img subtile_y st x) hne1
    refine ⟨v :: ixs, by simp [hlen], ?_⟩
    rw [List.foldl_cons, hfold, hstep, List.dropLast_concat, getD_last_concat]
    simp

theorem subtileYStep_tilemap (self : Config) (img : Image) (tile_x : Nat)
    (st : ConvResult) (subtile_y : Nat) :
    ∃ row : List Nat,
      row.length = (stepRange tile_x (tile_x + self.width) self.sub_width).length ∧
      (subtileYStep self img tile_x st subtile_y).tilemap =
        st.tilemap ++ [row] := by
  obtain ⟨ixs, hlen, hfold⟩ := subtileX_fold_tilemap self img subtile_y
    (stepRange tile_x (tile_x + self.width) self.sub_width)
    ⟨st.palette, st.tiles, st.tilemap ++ [[]]⟩ (by simp)
  refine ⟨ixs, hlen, ?_⟩
  rw [subtileYStep, hfold]
  simp [List.dropLast_concat, getD_last_concat]

theorem subtileY_fold_tilemap (self : Config) (img : Image) (tile_x : Nat) :
    ∀ (ys : List Nat) (st : ConvResult),
      ∃ rows : TileMap, rows.length = ys.length ∧
        (∀ row ∈ rows,
          row.length = (self.width + self.sub_width - 1) / self.sub_width) ∧
        (List.foldl (subtileYStep self img tile_x) st ys).tilemap =
          st.tilemap ++ rows := by
  intro ys
  induction ys with
  | nil =>
    intro st
    exact ⟨[], rfl, by simp, by simp⟩
  | cons sy ys ih =>
    intro st
    obtain ⟨row, hrow, hstep⟩ := subtileYStep_tilemap self img tile_x st sy
    obtain ⟨rows, hcount, hall, hfold⟩ := ih (subtileYStep self img tile_x st sy)
    refine ⟨row :: rows, by simp [hcount], ?_, ?_⟩
    · intro r hr
      rcases List.mem_cons.mp hr with rfl | hr
      · rw [hrow, stepRange_length]
      · exact hall r hr
    · rw [List.foldl_cons, hfold, hstep]
      simp

theorem tileX_fold_tilemap (self : Config) (img : Image) (tile_y : Nat) :
    ∀ (txs : List Nat) (st : ConvResult),
      ∃ rows : TileMap,
        rows.length =
          txs.length * ((self.height + self.sub_height - 1) / self.sub_height) ∧
        (∀ row ∈ rows,
          row.length = (self.width + self.sub_width - 1) / self.sub_width) ∧
        (List.foldl (tileXStep self img tile_y) st txs).tilemap =
          st.tilemap ++ rows := by
  intro txs
  induction txs with
  | nil =>
    intro st
    exact ⟨[], by simp, by simp, by simp⟩
  | cons tx txs ih =>
    intro st
    obtain ⟨rows1, hcount1, hall1, hstep⟩ := subtileY_fold_tilemap self img tx
      (stepRange tile_y (tile_y + self.height) self.sub_height) st
    obtain ⟨rows2, hcount2, hall2, hfold⟩ := ih (tileXStep self img tile_y st tx)
    refine ⟨rows1 ++ rows2, ?_, ?_, ?_⟩
    · rw [List.length_append, hcount1, hcount2, stepRange_length]
      simp only [List.length_cons]
      ring
    · intro r hr
      rcases List.mem_append.mp hr with hr | hr
      · exact hall1 r hr
      · exact hall2 r hr
    · rw [List.foldl_cons, hfold]
      rw [show tileXStep self img tile_y st tx =
        List.foldl (subtileYStep self img tx) st
          (stepRange tile_y (tile_y + self.height) self.sub_height) from rfl]
      rw [hstep, List.append_assoc]

theorem tileY_fold_tilemap (self : Config) (img : Image) :
    ∀ (tys : List Nat) (st : ConvResult),
      ∃ rows : TileMap,
        rows.length = tys.length * ((stepRange 0 img.width self.width).length *
          ((self.height + self.sub_height - 1) / self.sub_height)) ∧
        (∀ row ∈ rows,
          row.length = (self.width + self.sub_width - 1) / self.sub_width) ∧
        (List.foldl (tileYStep self img) st tys).tilemap =
          st.tilemap ++ rows := by
  intro tys
  induction tys with
  | nil =>
    intro st
    exact ⟨[], by simp, by simp, by simp⟩
  | cons ty tys ih =>
    intro st
    obtain ⟨rows1, hcount1, hall1, hstep⟩ := tileX_fold_tilemap self img ty
      (stepRange 0 img.width self.width) st
    obtain ⟨rows2, hcount2, hall2, hfold⟩ := ih (tileYStep self img st ty)
    refine ⟨rows1 ++ rows2, ?_, ?_, ?_⟩
    · rw [List.length_append, hcount1, hcount2]
      simp only [List.length_cons]
      ring
    · intro r hr
      rcases List.mem_append.mp hr with hr | hr
      · exact hall1 r hr
      · exact hall2 r hr
    · rw [List.foldl_cons, hfold]
      rw [show tileYStep self img st ty =
        List.foldl (tileXStep self img ty) st
          (stepRange 0 img.width self.width) from rfl]
      rw [hstep, List.append_assoc]

/-- C5 (amended): `convert_image` starts a new `TileMap` row once per
`(tile_x, subtile_y)` pair — the `subtile_y` loop is nested inside the
`tile_x` loop — so each map row spans the sub-tiles of a single metatile cell,
`ceil(width / sub_width)` entries, not the full image width; the number of
rows is `#tile_y steps × #tile_x steps × ceil(height / sub_height)`. -/
theorem convert_image_map_shape (self : Config) (img : Image) :
    (self.convert_image img).tilemap.length =
      (stepRange 0 img.height self.height).length *
        ((stepRange 0 img.width self.width).length *
          ((self.height + self.sub_height - 1) / self.sub_height)) ∧
    ∀ row ∈ (self.convert_image img).tilemap,
      row.length = (self.width + self.sub_width - 1) / self.sub_width := by
  obtain ⟨rows, hcount, hall, hfold⟩ := tileY_fold_tilemap self img
    (stepRange 0 img.height self.height)
    ⟨match self.transparency_color with
      | some transparency_color => Palette.insert [] transparency_color
      | none => [], [], []⟩
  constructor
  · rw [show (self.convert_image img).tilemap =
      (List.foldl (tileYStep self img)
        ⟨match self.transparency_color with
          | some transparency_color => Palette.insert [] transparency_color
          | none => [], [], []⟩
        (stepRange 0 img.height self.height)).tilemap from rfl]
    rw [hfold]
    simpa using hcount
  · intro row hrow
    rw [show (self.convert_image img).tilemap =
      (List.foldl (tileYStep self img)
        ⟨match self.transparency_color with
          | some transparency_color => Palette.insert [] transparency_color
          | none => [], [], []⟩
        (stepRange 0 img.height self.height)).tilemap from rfl] at hrow
    rw [hfold] at hrow
    exact hall row (by simpa using hrow)

set_option maxRecDepth 100000 in
/-- C5 counterexample: the default 8×8 configuration on a constant 16×8 image
produces the tile map `[[0], [0]]` — two rows of one entry each, one per
metatile cell — where the claim predicts a single row of two entries spanning
the full image width. -/
theorem convert_image_rows_not_full_width :
    (Config.new.convert_image ⟨16, 8, fun _ _ => ⟨1, 2, 3, 255⟩⟩).tilemap =
      [[0], [0]] ∧
    ¬ ∀ row ∈ (Config.new.convert_image
        ⟨16, 8, fun _ _ => ⟨1, 2, 3, 255⟩⟩).tilemap,
      row.length = 16 / 8 :=
  ⟨by decide, by decide⟩

set_option maxRecDepth 100000 in
/-- Witness for C5 at the default configuration on a constant 8×8 image. -/
theorem convert_image_map_shape_witness :
    (Config.new.convert_image ⟨8, 8, fun _ _ => ⟨1, 2, 3, 255⟩⟩).tilemap.length =
      (stepRange 0 8 Config.new.height).length *
        ((stepRange 0 8 Config.new.width).length *
          ((Config.new.height + Config.new.sub_height - 1) /
            Config.new.sub_height)) ∧
    ∀ row ∈ (Config.new.convert_image
        ⟨8, 8, fun _ _ => ⟨1, 2, 3, 255⟩⟩).tilemap,
      row.length =
        (Config.new.width + Config.new.sub_width - 1) / Config.new.sub_width :=
  convert_image_map_shape Config.new ⟨8, 8, fun _ _ => ⟨1, 2, 3, 255⟩⟩
